import Mathlib

/-!
Verification development for the matching core of the gamma graph library.

The Rust sources are embedded shallowly:

* `HashMap<usize, usize>` becomes an association list with unique keys in
  which `insert` overwrites and `remove` deletes; `find?` gives the map
  semantics, which coincide with the Rust map's semantics key for key.
* methods taking `&mut self` and returning `Result<(), Error>` become
  functions returning `Option Error × State`: the final state is returned
  even when an error is reported, mirroring in-place mutation.
* a Rust `panic!` (and an out-of-fuel loop) is embedded as `none` of an
  `Option` result.
-/

namespace Gamma

/-- Error enum of src/matching/error.rs. -/
inductive MatchingError where
  | Duplicate (sid tid : Nat)
  | DuplicateRoot (root : Nat)
  | MissingNode (id : Nat)
  | OddPathAugmentation
deriving DecidableEq, Repr

/-- Pairing of src/matching/pairing.rs: the field `pairs : HashMap<usize, usize>`,
embedded as an association list with most recent binding first. -/
abbrev Pairing := List (Nat × Nat)

namespace Pairing

/-- Lookup, as `self.pairs.get(&id)`. -/
def find? : Pairing → Nat → Option Nat
  | [], _ => none
  | (a, b) :: rest, k => if a = k then some b else find? rest k

/-- Deletion of a key, as `self.pairs.remove(&id)`. -/
def erase : Pairing → Nat → Pairing
  | [], _ => []
  | (x, y) :: rest, k => if x = k then erase rest k else (x, y) :: erase rest k

/-- Overwriting insertion, as `self.pairs.insert(k, v)`. -/
def insert (m : Pairing) (k v : Nat) : Pairing :=
  (k, v) :: erase m k

/-- Pairing::has_node. -/
def has_node (m : Pairing) (id : Nat) : Bool :=
  (find? m id).isSome

/-- Pairing::mate. -/
def mate (m : Pairing) (id : Nat) : Except MatchingError Nat :=
  match find? m id with
  | some v => .ok v
  | none => .error (.MissingNode id)

/-- Pairing::edges: pairs `(u, v)` of the map with `u < v`, each matched
edge appearing exactly once. -/
def edges (m : Pairing) : List (Nat × Nat) :=
  m.filter (fun p => p.1 < p.2)

/-- Second half of Pairing::pair: the `tid` branch followed by the two
inserts, entered with the map as left by the `sid` branch. -/
def pairTail (m : Pairing) (sid tid : Nat) : Option MatchingError × Pairing :=
  match find? m tid with
  | some tid_mate =>
    if tid_mate = sid then
      (some (.Duplicate sid tid), m)
    else
      (none, insert (insert (erase m tid_mate) sid tid) tid sid)
  | none => (none, insert (insert m sid tid) tid sid)

/-- Pairing::pair. The returned map is the final state of `self.pairs`,
also when an error is reported. -/
def pair (m : Pairing) (sid tid : Nat) : Option MatchingError × Pairing :=
  match find? m sid with
  | some sid_mate =>
    if sid_mate = tid then
      (some (.Duplicate sid tid), m)
    else
      pairTail (erase m sid_mate) sid tid
  | none => pairTail m sid tid

/-- Loop of Pairing::augment: `pair(path[i], path[i+1])` for each even `i`,
stopping at the first error. The singleton case is unreachable behind the
even-length guard of `augment`. -/
def augmentLoop : Pairing → List Nat → Option MatchingError × Pairing
  | m, x :: y :: rest =>
    match pair m x y with
    | (some e, m1) => (some e, m1)
    | (none, m1) => augmentLoop m1 rest
  | m, _ => (none, m)

/-- Pairing::augment. -/
def augment (m : Pairing) (path : List Nat) : Option MatchingError × Pairing :=
  if path.length % 2 = 1 then
    (some .OddPathAugmentation, m)
  else
    augmentLoop m path

/-- Keys of the pairs map. -/
def keys (m : Pairing) : List Nat :=
  m.map Prod.fst

/-- Invariant (i) of the spec data model: the mapping is symmetric. -/
def Involutive (m : Pairing) : Prop :=
  ∀ a b, find? m a = some b → find? m b = some a

/-- Invariant (ii) of the spec data model: every key has exactly one value. -/
def NodupKeys (m : Pairing) : Prop :=
  (keys m).Nodup

/-- Invariant (iii) of the spec data model: no vertex is paired with itself. -/
def SelfPairFree (m : Pairing) : Prop :=
  ∀ a, find? m a ≠ some a

/-- Distinctness of the even-indexed adjacent argument pairs of a path, in
the chunked form processed by the augment loop. -/
def chunkDistinct : List Nat → Prop
  | x :: y :: rest => x ≠ y ∧ chunkDistinct rest
  | _ => True

/-- Pairings reachable from Pairing::new by successful pair and augment
calls with arbitrary arguments. -/
inductive Reachable : Pairing → Prop where
  | nil : Reachable []
  | pair (m : Pairing) (s t : Nat) (hm : Reachable m)
      (hok : (Pairing.pair m s t).1 = none) : Reachable (Pairing.pair m s t).2
  | augment (m : Pairing) (p : List Nat) (hm : Reachable m)
      (hok : (Pairing.augment m p).1 = none) : Reachable (Pairing.augment m p).2

/-- Pairings reachable by successful pair and augment calls that never ask
a vertex to be paired with itself. -/
inductive ReachableNS : Pairing → Prop where
  | nil : ReachableNS []
  | pair (m : Pairing) (s t : Nat) (hm : ReachableNS m) (hst : s ≠ t)
      (hok : (Pairing.pair m s t).1 = none) : ReachableNS (Pairing.pair m s t).2
  | augment (m : Pairing) (p : List Nat) (hm : ReachableNS m)
      (hp : chunkDistinct p)
      (hok : (Pairing.augment m p).1 = none) : ReachableNS (Pairing.augment m p).2

end Pairing

/-- Marker of src/matching/marker.rs: a HashSet of marked nodes and a
HashMap from node to the Vec of its marked edge partners. -/
structure Marker where
  nodes : List Nat
  edges : List (Nat × List Nat)
deriving DecidableEq, Repr

namespace Marker

/-- Lookup in the edges map, as `self.edges.get(&id)`. -/
def edgesFind? : List (Nat × List Nat) → Nat → Option (List Nat)
  | [], _ => none
  | (a, b) :: rest, k => if a = k then some b else edgesFind? rest k

/-- Key deletion in the edges map. -/
def edgesErase : List (Nat × List Nat) → Nat → List (Nat × List Nat)
  | [], _ => []
  | (a, b) :: rest, k =>
    if a = k then edgesErase rest k else (a, b) :: edgesErase rest k

/-- Overwriting insertion in the edges map. -/
def edgesInsert (es : List (Nat × List Nat)) (k : Nat) (v : List Nat) :
    List (Nat × List Nat) :=
  (k, v) :: edgesErase es k

/-- Marker::new. -/
def new : Marker :=
  ⟨[], []⟩

/-- Marker::mark_node; the panic on a node marked twice is embedded as
none. -/
def mark_node (mk : Marker) (id : Nat) : Option Marker :=
  if id ∈ mk.nodes then
    none
  else
    some ⟨id :: mk.nodes, mk.edges⟩

/-- Marker::has_node. -/
def has_node (mk : Marker) (id : Nat) : Bool :=
  id ∈ mk.nodes

/-- Second entry update of Marker::mark_edge: push `sid` onto the vec at
`tid`, without a duplicate check. -/
def edgesSecond (es : List (Nat × List Nat)) (tid sid : Nat) :
    List (Nat × List Nat) :=
  match edgesFind? es tid with
  | some ns => edgesInsert es tid (ns ++ [sid])
  | none => edgesInsert es tid [sid]

/-- Marker::mark_edge; the panic on an edge marked twice is embedded as
none. -/
def mark_edge (mk : Marker) (sid tid : Nat) : Option Marker :=
  match edgesFind? mk.edges sid with
  | some ns =>
    if tid ∈ ns then
      none
    else
      some ⟨mk.nodes, edgesSecond (edgesInsert mk.edges sid (ns ++ [tid])) tid sid⟩
  | none =>
      some ⟨mk.nodes, edgesSecond (edgesInsert mk.edges sid [tid]) tid sid⟩

/-- Marker::has_edge. -/
def has_edge (mk : Marker) (sid tid : Nat) : Bool :=
  match edgesFind? mk.edges sid with
  | none => false
  | some neighbors => tid ∈ neighbors

end Marker

/-- Blossom of src/matching/blossom.rs. -/
structure Blossom where
  id : Nat
  path : List Nat
deriving DecidableEq, Repr

namespace Blossom

/-- Inner loop of Blossom::new: index of the first element of `right`
equal to `x`. -/
def findInRight (x : Nat) : List Nat → Option Nat
  | [] => none
  | y :: ys => if x = y then some 0 else (findInRight x ys).map (· + 1)

/-- Nested scan of Blossom::new over `left` (outer loop) and `right`
(inner loop), returning the stored blossom path; none embeds the panic on
inputs without a shared vertex. -/
def scanPath : List Nat → List Nat → Option (List Nat)
  | [], _ => none
  | x :: xs, right =>
    match findInRight x right with
    | some j => some (x :: (right.take j).reverse)
    | none => (scanPath xs right).map (x :: ·)

/-- Blossom::new. -/
def new (id : Nat) (left right : List Nat) : Option Blossom :=
  (scanPath left right).map (fun p => ⟨id, p⟩)

end Blossom

/-- Error variants constructed by src/graph/default_graph.rs (the snapshot
ships an older src/graph/error.rs; these are the variants the graph code
actually uses). -/
inductive GraphError where
  | DuplicateId (id : Nat)
  | UnknownId (id : Nat)
  | DuplicateEdge (sid tid : Nat)
  | MissingEdge (sid tid : Nat)
deriving DecidableEq, Repr

/-- DefaultGraph of src/graph/default_graph.rs. The Rust indices HashMap
plus adjacency Vec pair is embedded as one association list from node id
to neighbor list, kept in insertion order exactly like ids/adjacency. -/
structure DefaultGraph where
  adj : List (Nat × List Nat)
  edges : List (Nat × Nat)
deriving DecidableEq, Repr

namespace DefaultGraph

/-- Adjacency lookup, as indices.get plus the adjacency Vec index. -/
def adjFind? : List (Nat × List Nat) → Nat → Option (List Nat)
  | [], _ => none
  | (a, b) :: rest, k => if a = k then some b else adjFind? rest k

/-- Replacement of the neighbor list stored for an existing key. -/
def adjSet : List (Nat × List Nat) → Nat → List Nat → List (Nat × List Nat)
  | [], _, _ => []
  | (a, b) :: rest, k, v => if a = k then (a, v) :: rest else (a, b) :: adjSet rest k v

/-- DefaultGraph::new. -/
def new : DefaultGraph :=
  ⟨[], []⟩

/-- Node ids in insertion order, the `nodes()` accessor of the Graph API
generation that maximum_matching.rs and components.rs are written against
(`ids()` in the snapshot's trait). -/
def nodes (g : DefaultGraph) : List Nat :=
  g.adj.map Prod.fst

/-- Graph::has_id. -/
def has_id (g : DefaultGraph) (id : Nat) : Bool :=
  (adjFind? g.adj id).isSome

/-- Graph::is_empty. -/
def is_empty (g : DefaultGraph) : Bool :=
  g.adj.isEmpty

/-- DefaultGraph::add_node. -/
def add_node (g : DefaultGraph) (id : Nat) : Except GraphError DefaultGraph :=
  if (adjFind? g.adj id).isSome then
    .error (.DuplicateId id)
  else
    .ok ⟨g.adj ++ [(id, [])], g.edges⟩

/-- DefaultGraph::add_edge. The second neighbor push operates on the state
left by the first one, as in the Rust sequence of Vec pushes. -/
def add_edge (g : DefaultGraph) (sid tid : Nat) : Except GraphError DefaultGraph :=
  match adjFind? g.adj sid with
  | none => .error (.UnknownId sid)
  | some sadj =>
    match adjFind? g.adj tid with
    | none => .error (.UnknownId tid)
    | some _ =>
      if tid ∈ sadj then
        .error (.DuplicateEdge sid tid)
      else
        let a1 := adjSet g.adj sid (sadj ++ [tid])
        let a2 := adjSet a1 tid ((adjFind? a1 tid).getD [] ++ [sid])
        .ok ⟨a2, g.edges ++ [(sid, tid)]⟩

/-- Graph::neighbors. -/
def neighbors (g : DefaultGraph) (id : Nat) : Except GraphError (List Nat) :=
  match adjFind? g.adj id with
  | some ns => .ok ns
  | none => .error (.UnknownId id)

/-- Graph::has_edge. -/
def has_edge (g : DefaultGraph) (sid tid : Nat) : Except GraphError Bool :=
  match adjFind? g.adj sid with
  | none => .error (.UnknownId sid)
  | some sadj =>
    if (adjFind? g.adj tid).isSome then
      .ok (tid ∈ sadj)
    else
      .error (.UnknownId tid)

/-- One entry of TryFrom<Vec<(usize, usize)>>: add missing endpoints, then
the edge. -/
def addEdgeEntry (g : DefaultGraph) (sid tid : Nat) :
    Except GraphError DefaultGraph := do
  let g1 ← if g.has_id sid then pure g else g.add_node sid
  let g2 ← if g1.has_id tid then pure g1 else g1.add_node tid
  g2.add_edge sid tid

/-- TryFrom<Vec<(usize, usize)>> for DefaultGraph. -/
def try_from_edges (es : List (Nat × Nat)) : Except GraphError DefaultGraph :=
  es.foldlM (fun g p => addEdgeEntry g p.1 p.2) new

end DefaultGraph

/-- Step of src/traversal/step.rs (the usize instantiation used by the
matching code). -/
structure Step where
  sid : Nat
  tid : Nat
  cut : Bool
deriving DecidableEq, Repr

/-- DepthFirst of src/traversal/depth_first.rs. The Vec stack is embedded
with its top (the Vec end) as the list head. -/
structure DepthFirst where
  nodes : List Nat
  stack : List (Nat × Nat)
deriving DecidableEq, Repr

/-- DepthFirst::new; the root's neighbors end up on the stack with the
first neighbor on top, as after the Rust push sequence plus reverse. -/
def dfsNew (g : DefaultGraph) (root : Nat) : Except GraphError DepthFirst :=
  match DefaultGraph.neighbors g root with
  | .error e => .error e
  | .ok ns => .ok ⟨[root], ns.map (fun n => (root, n))⟩

/-- Neighbor push loop of DepthFirst::next, iterating the reversed
neighbor list: skip the parent, prune the stack when the neighbor is
already visited, then push. -/
def dfsPushLoop (visited : List Nat) (node parent : Nat) :
    List Nat → List (Nat × Nat) → List (Nat × Nat)
  | [], stack => stack
  | n :: ns, stack =>
    if n = parent then
      dfsPushLoop visited node parent ns stack
    else
      let stack1 :=
        if n ∈ visited then
          stack.filter (fun e => !(e.1 == n) && !(e.2 == node))
        else
          stack
      dfsPushLoop visited node parent ns ((node, n) :: stack1)

/-- DepthFirst::next; none embeds the neighbors unwrap panic, some none is
the end of iteration. -/
def dfsNext (g : DefaultGraph) (d : DepthFirst) :
    Option (Option (Step × DepthFirst)) :=
  match d.stack with
  | [] => some none
  | (parent, node) :: rest =>
    if node ∈ d.nodes then
      some (some (⟨parent, node, true⟩, ⟨d.nodes, rest⟩))
    else
      match DefaultGraph.adjFind? g.adj node with
      | none => none
      | some neighbors =>
        let stack2 := dfsPushLoop d.nodes node parent neighbors.reverse rest
        some (some (⟨parent, node, false⟩, ⟨node :: d.nodes, stack2⟩))

/-- Full run of the DepthFirst iterator, collecting every Step; fueled,
with none for a panic or fuel exhaustion. -/
def dfsRun (g : DefaultGraph) : DepthFirst → Nat → Option (List Step)
  | _, 0 => none
  | d, fuel + 1 =>
    match dfsNext g d with
    | none => none
    | some none => some []
    | some (some (s, d1)) => (dfsRun g d1 fuel).map (s :: ·)

/-- TryFrom<DepthFirst> for DefaultGraph: build the component graph from
the traversal's steps. -/
def graphFromSteps (steps : List Step) : Except GraphError DefaultGraph :=
  steps.foldlM (fun g step => do
    let g1 ← if g.is_empty then g.add_node step.sid else pure g
    let g2 ← if !step.cut then g1.add_node step.tid else pure g1
    g2.add_edge step.sid step.tid) DefaultGraph.new

/-- Loop of the Components iterator of src/selection/components.rs over
the remaining node ids; none embeds the expect panics and fuel
exhaustion. -/
def componentsLoop (g : DefaultGraph) (fuel : Nat) :
    List Nat → List Nat → Option (List DefaultGraph)
  | _, [] => some []
  | visited, root :: restIds =>
    if root ∈ visited then
      componentsLoop g fuel visited restIds
    else
      match dfsNew g root with
      | .error _ => none
      | .ok d =>
        match dfsRun g d fuel with
        | none => none
        | some steps =>
          match graphFromSteps steps with
          | .error _ => none
          | .ok comp =>
            if comp.is_empty then
              match comp.add_node root with
              | .error _ => none
              | .ok comp1 =>
                (componentsLoop g fuel (root :: visited) restIds).map (comp1 :: ·)
            else
              (componentsLoop g fuel (DefaultGraph.nodes comp ++ root :: visited) restIds).map
                (comp :: ·)

/-- components() of src/selection/components.rs. -/
def components (g : DefaultGraph) (fuel : Nat) : Option (List DefaultGraph) :=
  componentsLoop g fuel [] (DefaultGraph.nodes g)

/-- Body of the greedy step: `if nodes.insert(sid) && nodes.insert(tid)`
followed by pair, whose Result the source discards. The sid insertion
always happens; the tid insertion is short-circuited away when sid was
already present. -/
def greedyStep (st : List Nat × Pairing) (s : Step) : List Nat × Pairing :=
  if s.sid ∈ st.1 then
    st
  else
    let ns1 := s.sid :: st.1
    if s.tid ∈ ns1 then
      (ns1, st.2)
    else
      (s.tid :: ns1, (Pairing.pair st.2 s.sid s.tid).2)

/-- Component loop of greedy() of src/matching/greedy.rs. -/
def greedyComps : List DefaultGraph → Nat → List Nat × Pairing →
    Option (List Nat × Pairing)
  | [], _, st => some st
  | comp :: rest, fuel, st =>
    match DefaultGraph.nodes comp with
    | [] => none
    | root :: _ =>
      match dfsNew comp root with
      | .error _ => none
      | .ok d =>
        match dfsRun comp d fuel with
        | none => none
        | some steps => greedyComps rest fuel (steps.foldl greedyStep st)

/-- greedy() of src/matching/greedy.rs; fueled, with none embedding the
expect panics. -/
def greedy (g : DefaultGraph) (fuel : Nat) : Option Pairing :=
  match components g fuel with
  | none => none
  | some comps => (greedyComps comps fuel ([], [])).map Prod.snd

/-- Forest of src/matching/forest.rs: the parents HashMap embedded as an
association list in insertion order. -/
structure Forest where
  parents : List (Nat × Option Nat)
deriving DecidableEq, Repr

namespace Forest

/-- Lookup in the parents map. -/
def pFind? : List (Nat × Option Nat) → Nat → Option (Option Nat)
  | [], _ => none
  | (a, b) :: rest, k => if a = k then some b else pFind? rest k

/-- Forest::new. -/
def new : Forest :=
  ⟨[]⟩

/-- Forest::add_root. -/
def add_root (f : Forest) (root : Nat) : Except MatchingError Forest :=
  match pFind? f.parents root with
  | some _ => .error (.DuplicateRoot root)
  | none => .ok ⟨f.parents ++ [(root, none)]⟩

/-- Forest::add_edge. -/
def add_edge (f : Forest) (parent node : Nat) : Except MatchingError Forest :=
  if (pFind? f.parents parent).isNone then
    .error (.MissingNode parent)
  else if (pFind? f.parents node).isSome then
    .error (.Duplicate parent node)
  else
    .ok ⟨f.parents ++ [(node, some parent)]⟩

/-- Forest::has_node. -/
def has_node (f : Forest) (node : Nat) : Bool :=
  (pFind? f.parents node).isSome

/-- Walking loop of Forest::path; fueled, the fuel being unreachable for
forests built by add_root/add_edge, whose parent chains are acyclic and
bounded by the map size. -/
def pathLoop (f : Forest) : Nat → Option Nat → List Nat → Option (List Nat)
  | 0, _, _ => none
  | fuel + 1, parent, result =>
    match parent with
    | none => some result.reverse
    | some id =>
      match pFind? f.parents id with
      | none => none
      | some p2 => pathLoop f fuel p2 (id :: result)

/-- Modelled from the spec: the Forest::path generation that
maximum_matching.rs compiles against (the snapshot's forest.rs returns
Result and root-to-node order, under which the `.last()` comparison of
even_path could never detect a blossom). Here path returns some for a
forest node, none when absent, and lists the walk in node-to-root order,
so that the last elements of two paths agree exactly when their roots
agree, which is the blossom condition of spec section 4.E; with this
orientation the embedding reproduces every maximum_matching test of the
source. -/
def path (f : Forest) (node : Nat) : Option (List Nat) :=
  match pFind? f.parents node with
  | none => none
  | some p => pathLoop f (f.parents.length + 1) p [node]

/-- Modelled from the spec: `even_vertices()` of section 4.C, the sequence
of all currently even forest vertices (parity from path length), which
maximum_matching.rs calls as `forest.even_nodes()` but which is missing
from the snapshot's forest.rs; iterated here in the parents map's
insertion order. -/
def even_nodes (f : Forest) : List Nat :=
  (f.parents.map Prod.fst).filter (fun v =>
    match path f v with
    | some p => p.length % 2 == 1
    | none => false)

end Forest

namespace Blossom

/-- Blossom::contract_graph. -/
def contract_graph (b : Blossom) (g : DefaultGraph) :
    Except GraphError DefaultGraph := do
  let r0 ← DefaultGraph.new.add_node b.id
  let r1 ← (DefaultGraph.nodes g).foldlM (fun r id =>
    if id ∈ b.path then pure r else r.add_node id) r0
  g.edges.foldlM (fun r e =>
    if e.1 ∈ b.path then
      if e.2 ∈ b.path then
        pure r
      else do
        let he ← r.has_edge b.id e.2
        if he then pure r else r.add_edge b.id e.2
    else if e.2 ∈ b.path then do
      let he ← r.has_edge e.1 b.id
      if he then pure r else r.add_edge e.1 b.id
    else
      r.add_edge e.1 e.2) r1

/-- Blossom::contract_pairing; the source discards each pair Result. -/
def contract_pairing (b : Blossom) (m : Pairing) : Pairing :=
  (Pairing.edges m).foldl (fun r e =>
    if e.1 ∈ b.path then
      if e.2 ∈ b.path then r
      else (Pairing.pair r b.id e.2).2
    else if e.2 ∈ b.path then
      (Pairing.pair r e.1 b.id).2
    else
      (Pairing.pair r e.1 e.2).2) []

/-- Vec::rotate_right(1): the last element moves to the front. -/
def rotateRight1 (l : List Nat) : List Nat :=
  match l.getLast? with
  | none => l
  | some x => x :: l.dropLast

/-- Rotation loop of lift_left_blossom: rotate until the front is adjacent
to sid. Fueled by the cycle length; exhaustion embeds the never-ending
Rust loop on a cycle with no legal entry, alongside the unwrap panic. -/
def rotFrontAdj (g : DefaultGraph) (sid : Nat) : Nat → List Nat → Option (List Nat)
  | 0, _ => none
  | fuel + 1, copy =>
    match copy.head? with
    | none => none
    | some c0 =>
      match DefaultGraph.has_edge g sid c0 with
      | .error _ => none
      | .ok true => some copy
      | .ok false => rotFrontAdj g sid fuel (rotateRight1 copy)

/-- Rotation loop of lift_blossom_right: rotate until the back is adjacent
to tid. -/
def rotBackAdj (g : DefaultGraph) (tid : Nat) : Nat → List Nat → Option (List Nat)
  | 0, _ => none
  | fuel + 1, copy =>
    match copy.getLast? with
    | none => none
    | some cl =>
      match DefaultGraph.has_edge g cl tid with
      | .error _ => none
      | .ok true => some copy
      | .ok false => rotBackAdj g tid fuel (rotateRight1 copy)

/-- Emission scan of lift_left_blossom_right: take blossom vertices up to
and including the first one adjacent to tid; without a break the whole
cycle is emitted. -/
def scanEmit (g : DefaultGraph) (tid : Nat) : List Nat → Option (List Nat)
  | [] => some []
  | bid :: rest =>
    match DefaultGraph.has_edge g bid tid with
    | .error _ => none
    | .ok true => some [bid]
    | .ok false => (scanEmit g tid rest).map (bid :: ·)

/-- Blossom::lift_left_blossom. -/
def lift_left_blossom (b : Blossom) (g : DefaultGraph) (left : List Nat) :
    Option (List Nat) :=
  match left.getLast? with
  | none => none
  | some sid =>
    match rotFrontAdj g sid (b.path.length + 1) b.path with
    | none => none
    | some copy => some (left ++ copy)

/-- Blossom::lift_blossom_right. -/
def lift_blossom_right (b : Blossom) (g : DefaultGraph) (right : List Nat) :
    Option (List Nat) :=
  match right.head? with
  | none => none
  | some tid =>
    match rotBackAdj g tid (b.path.length + 1) b.path with
    | none => none
    | some copy => some (copy ++ right)

/-- Blossom::lift_left_blossom_right. -/
def lift_left_blossom_right (b : Blossom) (g : DefaultGraph)
    (left right : List Nat) : Option (List Nat) :=
  match left.getLast?, right.head? with
  | some sid, some tid =>
    match rotFrontAdj g sid (b.path.length + 1) b.path with
    | none => none
    | some forward_blossom =>
      match scanEmit g tid forward_blossom with
      | none => none
      | some emitted =>
        let forward := left ++ emitted ++ right
        if forward.length % 2 = 0 then
          some forward
        else
          match rotFrontAdj g sid (b.path.length + 1) b.path.reverse with
          | none => none
          | some reverse_blossom =>
            match scanEmit g tid reverse_blossom with
            | none => none
            | some emitted2 => some (left ++ emitted2 ++ right)
  | _, _ => none

/-- Index of the first occurrence, as `iter().position`. -/
def posOf (x : Nat) : List Nat → Option Nat
  | [] => none
  | y :: ys => if y = x then some 0 else (posOf x ys).map (· + 1)

/-- Blossom::lift. -/
def lift (b : Blossom) (p : List Nat) (g : DefaultGraph) : Option (List Nat) :=
  match posOf b.id p with
  | none => some p
  | some index =>
    let left := p.take index
    let right := p.drop (index + 1)
    if left.isEmpty && right.isEmpty then
      some b.path
    else if !left.isEmpty && right.isEmpty then
      lift_left_blossom b g left
    else if left.isEmpty && !right.isEmpty then
      lift_blossom_right b g right
    else
      lift_left_blossom_right b g left right

end Blossom

/-- Marking of every currently matched edge at the start of
augmenting_path. -/
def markEdges : Marker → List (Nat × Nat) → Option Marker
  | mk, [] => some mk
  | mk, (s, t) :: rest =>
    match Marker.mark_edge mk s t with
    | none => none
    | some mk1 => markEdges mk1 rest

/-- Forest::add_edge with the Result discarded, as the search does: the
forest is unchanged when the call reports an error. -/
def addEdgeQuiet (f : Forest) (parent node : Nat) : Forest :=
  match Forest.add_edge f parent node with
  | .ok f1 => f1
  | .error _ => f

/-- Root installation of augmenting_path: unmatched graph nodes become
forest roots; the source discards the add_root Result. -/
def addRoots (f : Forest) (ids : List Nat) (m : Pairing) : Forest :=
  ids.foldl (fun f v =>
    if Pairing.has_node m v then f
    else
      match Forest.add_root f v with
      | .ok f1 => f1
      | .error _ => f) f

/-- some_v of maximum_matching.rs. -/
def some_v (f : Forest) (mk : Marker) : Option Nat :=
  (Forest.even_nodes f).find? (fun id => !(Marker.has_node mk id))

/-- some_w of maximum_matching.rs; the outer none embeds the neighbors
expect panic. -/
def some_w (g : DefaultGraph) (v : Nat) (mk : Marker) : Option (Option Nat) :=
  match DefaultGraph.adjFind? g.adj v with
  | none => none
  | some ns => some (ns.find? (fun id => !(Marker.has_edge mk v id)))

/-- Largest node id, as nodes().iter().max(). -/
def maxNodeId (g : DefaultGraph) : Option Nat :=
  match DefaultGraph.nodes g with
  | [] => none
  | x :: xs => some (xs.foldl Nat.max x)

/-- Result of one inner loop of augmenting_path: break back to the outer
loop with the updated forest and marker, or return from the search. -/
inductive InnerOut where
  | br (f : Forest) (mk : Marker)
  | ret (res : Option (List Nat))

mutual

/-- augmenting_path of maximum_matching.rs, fueled. The second component
of the result is the state of the borrowed pairing when the call returns;
none embeds a panic or fuel exhaustion. -/
def augmentingPath : Nat → DefaultGraph → Pairing →
    Option (Option (List Nat) × Pairing)
  | 0, _, _ => none
  | fuel + 1, g, m =>
    match markEdges Marker.new (Pairing.edges m) with
    | none => none
    | some mk0 =>
      outerLoop fuel g m (addRoots Forest.new (DefaultGraph.nodes g) m) mk0

/-- Outer loop of augmenting_path. -/
def outerLoop : Nat → DefaultGraph → Pairing → Forest → Marker →
    Option (Option (List Nat) × Pairing)
  | 0, _, _, _, _ => none
  | fuel + 1, g, m, f, mk =>
    match some_v f mk with
    | none => some (none, m)
    | some v =>
      match innerLoop fuel g m v f mk with
      | none => none
      | some (.ret res) => some (res, m)
      | some (.br f1 mk1) =>
        match Marker.mark_node mk1 v with
        | none => none
        | some mk2 => outerLoop fuel g m f1 mk2

/-- Inner loop of augmenting_path. -/
def innerLoop : Nat → DefaultGraph → Pairing → Nat → Forest → Marker →
    Option InnerOut
  | 0, _, _, _, _, _ => none
  | fuel + 1, g, m, v, f, mk =>
    match some_w g v mk with
    | none => none
    | some none => some (.br f mk)
    | some (some w) =>
      match Forest.path f w with
      | some path_w =>
        if path_w.length % 2 = 1 then
          match even_path fuel g v path_w m f with
          | none => none
          | some res => some (.ret res)
        else
          match Marker.mark_edge mk v w with
          | none => none
          | some mk1 => innerLoop fuel g m v f mk1
      | none =>
        match Pairing.find? m w with
        | none => none
        | some mw =>
          match Marker.mark_edge mk v w with
          | none => none
          | some mk1 =>
            innerLoop fuel g m v (addEdgeQuiet (addEdgeQuiet f v w) w mw) mk1

/-- even_path of maximum_matching.rs. -/
def even_path : Nat → DefaultGraph → Nat → List Nat → Pairing → Forest →
    Option (Option (List Nat))
  | 0, _, _, _, _, _ => none
  | fuel + 1, g, v, path_w, m, f =>
    match Forest.path f v with
    | none => none
    | some path_v =>
      if path_v.getLast? = path_w.getLast? then
        process_blossom fuel g path_v path_w m
      else
        some (some (path_v.reverse ++ path_w))

/-- process_blossom of maximum_matching.rs. -/
def process_blossom : Nat → DefaultGraph → List Nat → List Nat → Pairing →
    Option (Option (List Nat))
  | 0, _, _, _, _ => none
  | fuel + 1, g, left, right, m =>
    match maxNodeId g with
    | none => none
    | some mid =>
      match Blossom.new (mid + 1) left right with
      | none => none
      | some b =>
        match Blossom.contract_graph b g with
        | .error _ => none
        | .ok cg =>
          match augmentingPath fuel cg (Blossom.contract_pairing b m) with
          | none => none
          | some (some p, _) =>
            match Blossom.lift b p g with
            | none => none
            | some lifted => some (some lifted)
          | some (none, _) => some none

end

/-- maximum_matching of maximum_matching.rs, fueled: the while loop that
augments with each returned path (discarding the augment Result) and
recurses on itself. -/
def maximumMatching : Nat → DefaultGraph → Pairing → Option Pairing
  | 0, _, _ => none
  | fuel + 1, g, m =>
    match augmentingPath fuel g m with
    | none => none
    | some (none, m1) => some m1
    | some (some p, m1) =>
      match maximumMatching fuel g (Pairing.augment m1 p).2 with
      | none => none
      | some m3 => maximumMatching fuel g m3

/-!
Theorems. Basic lemmas about the embedded operations come first, then the
claim-level results.
-/

namespace Pairing

@[simp]
theorem find?_erase (m : Pairing) (k a : Nat) :
    find? (erase m k) a = if a = k then none else find? m a := by
  induction m with
  | nil => simp [find?, erase]
  | cons p rest ih =>
    obtain ⟨x, y⟩ := p
    by_cases hxk : x = k
    · by_cases hak : a = k
      · simp only [hak] at ih ⊢
        simp [erase, find?, hxk, ih]
      · have hka : ¬k = a := by omega
        simp [erase, find?, hxk, hak, hka, ih]
    · by_cases hxa : x = a
      · have hak : a ≠ k := by omega
        simp [erase, find?, hxk, hxa, hak]
      · simp [erase, find?, hxk, hxa, ih]

@[simp]
theorem find?_insert (m : Pairing) (k v a : Nat) :
    find? (insert m k v) a = if a = k then some v else find? m a := by
  by_cases hak : a = k
  · simp [insert, find?, hak]
  · have hka : k ≠ a := by omega
    simp [insert, find?, hak, hka, find?_erase]

/-- Calling pair on a node already mapped to the requested mate reports
`Duplicate` at the first branch, before any mutation. -/
theorem pair_eq_err_left {m : Pairing} {s t : Nat} (h : find? m s = some t) :
    pair m s t = (some (.Duplicate s t), m) := by
  simp [pair, h]

/-- In the branch where the first check passes but `t` is already mapped to
`s`, pair reports `Duplicate` at the second branch. -/
theorem pair_fst_eq_err_right {m : Pairing} {s t : Nat}
    (hs : find? m s ≠ some t) (ht : find? m t = some s) :
    (pair m s t).1 = some (MatchingError.Duplicate s t) := by
  rcases hfs : find? m s with _ | sm
  · simp [pair, pairTail, hfs, ht]
  · have hsm : sm ≠ t := by
      intro h
      exact hs (h ▸ hfs)
    have htm : t ≠ sm := fun h => hsm h.symm
    simp [pair, pairTail, hfs, hsm, htm, ht]

/-- Characterization of the second half of pair on success. -/
theorem pairTail_ok (mb : Pairing) (s t : Nat) (ht : find? mb t ≠ some s) :
    (pairTail mb s t).1 = none ∧
    ∀ a, find? (pairTail mb s t).2 a =
      if a = t then some s
      else if a = s then some t
      else if find? mb t = some a then none
      else find? mb a := by
  rcases hft : find? mb t with _ | tm
  · refine ⟨by simp [pairTail, hft], fun a => ?_⟩
    by_cases hat : a = t
    · simp [pairTail, hft, hat]
    · by_cases has : a = s
      · simp [pairTail, hft, hat, has]
      · simp [pairTail, hft, hat, has]
  · have htm : tm ≠ s := by
      intro h
      exact ht (h ▸ hft)
    refine ⟨by simp [pairTail, hft, htm], fun a => ?_⟩
    by_cases hat : a = t
    · simp [pairTail, hft, htm, hat]
    · by_cases has : a = s
      · simp [pairTail, hft, htm, hat, has]
      · by_cases hatm : a = tm
        · simp [pairTail, hft, htm, hat, has, hatm]
        · have h2 : ¬tm = a := fun h => hatm h.symm
          simp [pairTail, hft, htm, hat, has, hatm, h2]

/-- Characterization of pair on success: no error is reported, `s` and `t`
become mates, the previous mates of `s` and `t` lose their binding, and all
other bindings are preserved. -/
theorem pair_ok (m : Pairing) (s t : Nat)
    (hs : find? m s ≠ some t) (ht : find? m t ≠ some s) :
    (pair m s t).1 = none ∧
    ∀ a, find? (pair m s t).2 a =
      if a = t then some s
      else if a = s then some t
      else if find? m s = some a ∨ find? m t = some a then none
      else find? m a := by
  rcases hfs : find? m s with _ | sm
  · have hbase : pair m s t = pairTail m s t := by simp [pair, hfs]
    obtain ⟨h1, h2⟩ := pairTail_ok m s t ht
    rw [hbase]
    refine ⟨h1, fun a => ?_⟩
    rw [h2 a]
    by_cases hat : a = t
    · simp [hat]
    · by_cases has : a = s
      · simp [hat, has]
      · simp [hat, has, hfs]
  · have hsm : sm ≠ t := by
      intro h
      exact hs (h ▸ hfs)
    have hbase : pair m s t = pairTail (erase m sm) s t := by
      simp [pair, hfs, hsm]
    have het : find? (erase m sm) t = find? m t := by
      have : ¬t = sm := fun h => hsm h.symm
      simp [find?_erase, this]
    obtain ⟨h1, h2⟩ := pairTail_ok (erase m sm) s t (by rw [het]; exact ht)
    rw [hbase]
    refine ⟨h1, fun a => ?_⟩
    rw [h2 a, het]
    by_cases hat : a = t
    · simp [hat]
    · by_cases has : a = s
      · simp [hat, has]
      · by_cases hmt : find? m t = some a
        · simp [hat, has, hmt]
        · by_cases hasm : a = sm
          · simp [hat, has, hmt, hasm, hfs, find?_erase]
          · have hsma : ¬sm = a := fun h => hasm h.symm
            simp [hat, has, hmt, hasm, hsma, find?_erase]

/-- Success condition for pair: it reports no error exactly when neither
node is already bound to the other. -/
theorem pair_fst_eq_none_iff (m : Pairing) (s t : Nat) :
    (pair m s t).1 = none ↔ (find? m s ≠ some t ∧ find? m t ≠ some s) := by
  constructor
  · intro h
    constructor
    · intro hc
      rw [pair_eq_err_left hc] at h
      exact Option.noConfusion h
    · intro hc
      by_cases hsc : find? m s = some t
      · rw [pair_eq_err_left hsc] at h
        exact Option.noConfusion h
      · rw [pair_fst_eq_err_right hsc hc] at h
        exact Option.noConfusion h
  · intro ⟨hs, ht⟩
    exact (pair_ok m s t hs ht).1

theorem erase_sublist (m : Pairing) (k : Nat) : List.Sublist (erase m k) m := by
  induction m with
  | nil => simp [erase]
  | cons p rest ih =>
    obtain ⟨x, y⟩ := p
    by_cases hxk : x = k
    · simpa [erase, hxk] using ih.cons (x, y)
    · simpa [erase, hxk] using ih.cons₂ (x, y)

theorem not_mem_keys_erase (m : Pairing) (k : Nat) : k ∉ keys (erase m k) := by
  induction m with
  | nil => simp [erase, keys]
  | cons p rest ih =>
    obtain ⟨x, y⟩ := p
    by_cases hxk : x = k
    · simpa [erase, keys, hxk] using ih
    · have hkx : k ≠ x := fun h => hxk h.symm
      simpa [erase, keys, hxk, hkx] using ih

theorem nodupKeys_erase {m : Pairing} (k : Nat) (h : NodupKeys m) :
    NodupKeys (erase m k) :=
  h.sublist ((erase_sublist m k).map Prod.fst)

theorem nodupKeys_insert {m : Pairing} (k v : Nat) (h : NodupKeys m) :
    NodupKeys (insert m k v) := by
  have hk : keys (insert m k v) = k :: keys (erase m k) := by
    simp [keys, insert]
  unfold NodupKeys
  rw [hk]
  exact List.nodup_cons.2 ⟨not_mem_keys_erase m k, nodupKeys_erase k h⟩

theorem nodupKeys_pairTail {mb : Pairing} (s t : Nat) (h : NodupKeys mb) :
    NodupKeys (pairTail mb s t).2 := by
  rcases hft : find? mb t with _ | tm
  · simpa [pairTail, hft] using nodupKeys_insert t s (nodupKeys_insert s t h)
  · by_cases htm : tm = s
    · simpa [pairTail, hft, htm] using h
    · simpa [pairTail, hft, htm] using
        nodupKeys_insert t s (nodupKeys_insert s t (nodupKeys_erase tm h))

/-- Key uniqueness is preserved by pair in every branch, error or not. -/
theorem nodupKeys_pair {m : Pairing} (s t : Nat) (h : NodupKeys m) :
    NodupKeys (pair m s t).2 := by
  rcases hfs : find? m s with _ | sm
  · simpa [pair, hfs] using nodupKeys_pairTail s t h
  · by_cases hsm : sm = t
    · simpa [pair, hfs, hsm] using h
    · simpa [pair, hfs, hsm] using nodupKeys_pairTail s t (nodupKeys_erase sm h)

/-- Symmetry of the mapping is preserved by every successful pair call. -/
theorem involutive_pair {m : Pairing} {s t : Nat} (hinv : Involutive m)
    (hok : (pair m s t).1 = none) : Involutive (pair m s t).2 := by
  obtain ⟨hs, ht⟩ := (pair_fst_eq_none_iff m s t).1 hok
  obtain ⟨-, hfind⟩ := pair_ok m s t hs ht
  intro a b hab
  rw [hfind a] at hab
  rw [hfind b]
  by_cases hat : a = t
  · rw [if_pos hat] at hab
    obtain rfl : s = b := Option.some.inj hab
    by_cases hst : s = t
    · rw [if_pos hst, hat, hst]
    · rw [if_neg hst, if_pos rfl, hat]
  · by_cases has : a = s
    · rw [if_neg hat, if_pos has] at hab
      obtain rfl : t = b := Option.some.inj hab
      rw [if_pos rfl, has]
    · rw [if_neg hat, if_neg has] at hab
      by_cases hd : find? m s = some a ∨ find? m t = some a
      · rw [if_pos hd] at hab
        exact Option.noConfusion hab
      · rw [if_neg hd] at hab
        push_neg at hd
        have hmb := hinv a b hab
        by_cases hbt : b = t
        · exact absurd (hbt ▸ hmb) hd.2
        · by_cases hbs : b = s
          · exact absurd (hbs ▸ hmb) hd.1
          · rw [if_neg hbt, if_neg hbs]
            by_cases hdb : find? m s = some b ∨ find? m t = some b
            · rcases hdb with hsb | htb
              · have h2 := hinv s b hsb
                rw [hmb] at h2
                exact absurd (Option.some.inj h2) has
              · have h2 := hinv t b htb
                rw [hmb] at h2
                exact absurd (Option.some.inj h2) hat
            · rw [if_neg hdb]
              exact hmb

/-- Freedom from self-pairs is preserved by a successful pair call with
distinct arguments. -/
theorem selfPairFree_pair {m : Pairing} {s t : Nat} (hsp : SelfPairFree m)
    (hst : s ≠ t) (hok : (pair m s t).1 = none) :
    SelfPairFree (pair m s t).2 := by
  obtain ⟨hs, ht⟩ := (pair_fst_eq_none_iff m s t).1 hok
  obtain ⟨-, hfind⟩ := pair_ok m s t hs ht
  intro a hcon
  rw [hfind a] at hcon
  by_cases hat : a = t
  · rw [if_pos hat] at hcon
    exact hst ((Option.some.inj hcon).trans hat)
  · by_cases has : a = s
    · rw [if_neg hat, if_pos has] at hcon
      exact hst ((Option.some.inj hcon).trans has).symm
    · rw [if_neg hat, if_neg has] at hcon
      by_cases hd : find? m s = some a ∨ find? m t = some a
      · rw [if_pos hd] at hcon
        exact Option.noConfusion hcon
      · rw [if_neg hd] at hcon
        exact hsp a hcon

/-- Invariants preserved by successful pair calls are preserved by a
successful augment loop. -/
theorem augmentLoop_inv {P : Pairing → Prop}
    (hP : ∀ m s t, P m → (pair m s t).1 = none → P (pair m s t).2) :
    ∀ path m, P m → (augmentLoop m path).1 = none → P (augmentLoop m path).2
  | [], _, hm, _ => hm
  | [_], _, hm, _ => hm
  | x :: y :: rest, m, hm, hok => by
    rcases hp : pair m x y with ⟨oe, m1⟩
    cases oe with
    | some e =>
      rw [show augmentLoop m (x :: y :: rest) = (some e, m1) from by
        simp [augmentLoop, hp]] at hok
      exact Option.noConfusion hok
    | none =>
      have hm1 : P m1 := by
        have := hP m x y hm (by rw [hp])
        rwa [hp] at this
      have hrw : augmentLoop m (x :: y :: rest) = augmentLoop m1 rest := by
        simp [augmentLoop, hp]
      rw [hrw] at hok ⊢
      exact augmentLoop_inv hP rest m1 hm1 hok

/-- Freedom from self-pairs is preserved by a successful augment loop over
a path whose processed argument pairs are distinct. -/
theorem augmentLoop_selfPairFree :
    ∀ path m, SelfPairFree m → chunkDistinct path →
      (augmentLoop m path).1 = none → SelfPairFree (augmentLoop m path).2
  | [], _, hm, _, _ => hm
  | [_], _, hm, _, _ => hm
  | x :: y :: rest, m, hm, hc, hok => by
    rcases hp : pair m x y with ⟨oe, m1⟩
    cases oe with
    | some e =>
      rw [show augmentLoop m (x :: y :: rest) = (some e, m1) from by
        simp [augmentLoop, hp]] at hok
      exact Option.noConfusion hok
    | none =>
      have hm1 : SelfPairFree m1 := by
        have := selfPairFree_pair hm hc.1 (by rw [hp])
        rwa [hp] at this
      have hrw : augmentLoop m (x :: y :: rest) = augmentLoop m1 rest := by
        simp [augmentLoop, hp]
      rw [hrw] at hok ⊢
      exact augmentLoop_selfPairFree rest m1 hm1 hc.2 hok

theorem augment_inv {P : Pairing → Prop}
    (hP : ∀ m s t, P m → (pair m s t).1 = none → P (pair m s t).2)
    {m : Pairing} {p : List Nat} (hm : P m) (hok : (augment m p).1 = none) :
    P (augment m p).2 := by
  unfold augment at hok ⊢
  by_cases hl : p.length % 2 = 1
  · rw [if_pos hl] at hok
    exact Option.noConfusion hok
  · rw [if_neg hl] at hok ⊢
    exact augmentLoop_inv hP p m hm hok

theorem augment_selfPairFree {m : Pairing} {p : List Nat} (hm : SelfPairFree m)
    (hp : chunkDistinct p) (hok : (augment m p).1 = none) :
    SelfPairFree (augment m p).2 := by
  unfold augment at hok ⊢
  by_cases hl : p.length % 2 = 1
  · rw [if_pos hl] at hok
    exact Option.noConfusion hok
  · rw [if_neg hl] at hok ⊢
    exact augmentLoop_selfPairFree p m hm hp hok

/-- Main inductive lemma for the augment loop: over a duplicate-free path
none of whose processed argument pairs is already matched, the loop
succeeds, keeps the mapping symmetric, preserves bindings entirely outside
the path, and makes every processed pair mutual mates. -/
theorem augmentLoop_spec :
    ∀ (path : List Nat) (m : Pairing), Involutive m → path.Nodup →
      (∀ i (h : 2 * i + 1 < path.length),
        find? m (path.get ⟨2 * i, by omega⟩) ≠ some (path.get ⟨2 * i + 1, h⟩)) →
      (augmentLoop m path).1 = none
      ∧ Involutive (augmentLoop m path).2
      ∧ (∀ a b, a ∉ path → b ∉ path → find? m a = some b →
          find? (augmentLoop m path).2 a = some b)
      ∧ (∀ i (h : 2 * i + 1 < path.length),
          find? (augmentLoop m path).2 (path.get ⟨2 * i, by omega⟩)
            = some (path.get ⟨2 * i + 1, h⟩)
          ∧ find? (augmentLoop m path).2 (path.get ⟨2 * i + 1, h⟩)
            = some (path.get ⟨2 * i, by omega⟩))
  | [], m, hinv, _, _ => by
    refine ⟨rfl, hinv, fun a b _ _ hab => hab, fun i h => ?_⟩
    simp at h
  | [x], m, hinv, _, _ => by
    refine ⟨rfl, hinv, fun a b _ _ hab => hab, fun i h => ?_⟩
    simp at h
  | x :: y :: rest, m, hinv, hnd, hfree => by
    obtain ⟨hx_mem, hnd1⟩ := List.nodup_cons.1 hnd
    obtain ⟨hy_mem, hnd2⟩ := List.nodup_cons.1 hnd1
    have hxy : x ≠ y := fun h => hx_mem (h ▸ List.mem_cons_self y rest)
    have hx_rest : x ∉ rest := fun h => hx_mem (List.mem_cons_of_mem y h)
    have hfx : find? m x ≠ some y := hfree 0 (by simp)
    have hfy : find? m y ≠ some x := fun h => hfx (hinv y x h)
    obtain ⟨hp1, hform⟩ := pair_ok m x y hfx hfy
    have hpair : pair m x y = (none, (pair m x y).2) := by
      rw [← hp1]
    have hrw : augmentLoop m (x :: y :: rest) = augmentLoop (pair m x y).2 rest := by
      simp only [augmentLoop]
      rw [hpair]
    have hinv1 : Involutive (pair m x y).2 := involutive_pair hinv hp1
    have hstep : ∀ a b, a ≠ x → a ≠ y → b ≠ x → b ≠ y → find? m a = some b →
        find? (pair m x y).2 a = some b := by
      intro a b hax hay hbx hby hab
      rw [hform a, if_neg hay, if_neg hax]
      by_cases hd : find? m x = some a ∨ find? m y = some a
      · exfalso
        rcases hd with hxa | hya
        · have := hinv x a hxa
          rw [hab] at this
          exact hbx (Option.some.inj this)
        · have := hinv y a hya
          rw [hab] at this
          exact hby (Option.some.inj this)
      · rw [if_neg hd]
        exact hab
    have hfree1 : ∀ i (h : 2 * i + 1 < rest.length),
        find? (pair m x y).2 (rest.get ⟨2 * i, by omega⟩)
          ≠ some (rest.get ⟨2 * i + 1, h⟩) := by
      intro i h hcon
      have e0 : rest.get ⟨2 * i, by omega⟩ ∈ rest := List.get_mem rest (2 * i) (by omega)
      have hne_x : rest.get ⟨2 * i, by omega⟩ ≠ x := fun he => hx_rest (he ▸ e0)
      have hne_y : rest.get ⟨2 * i, by omega⟩ ≠ y := fun he => hy_mem (he ▸ e0)
      rw [hform (rest.get ⟨2 * i, by omega⟩), if_neg hne_y, if_neg hne_x] at hcon
      by_cases hd : find? m x = some (rest.get ⟨2 * i, by omega⟩)
          ∨ find? m y = some (rest.get ⟨2 * i, by omega⟩)
      · rw [if_pos hd] at hcon
        exact Option.noConfusion hcon
      · rw [if_neg hd] at hcon
        exact hfree (i + 1) (by simp only [List.length_cons]; omega) hcon
    obtain ⟨ih1, ih2, ih3, ih4⟩ := augmentLoop_spec rest (pair m x y).2 hinv1 hnd2 hfree1
    rw [hrw]
    refine ⟨ih1, ih2, ?_, ?_⟩
    · intro a b ha hb hab
      have hax : a ≠ x := fun h => ha (by rw [h]; exact List.mem_cons_self x (y :: rest))
      have hay : a ≠ y := fun h => ha (by
        rw [h]
        exact List.mem_cons_of_mem x (List.mem_cons_self y rest))
      have har : a ∉ rest := fun h =>
        ha (List.mem_cons_of_mem x (List.mem_cons_of_mem y h))
      have hbx : b ≠ x := fun h => hb (by rw [h]; exact List.mem_cons_self x (y :: rest))
      have hby : b ≠ y := fun h => hb (by
        rw [h]
        exact List.mem_cons_of_mem x (List.mem_cons_self y rest))
      have hbr : b ∉ rest := fun h =>
        hb (List.mem_cons_of_mem x (List.mem_cons_of_mem y h))
      exact ih3 a b har hbr (hstep a b hax hay hbx hby hab)
    · intro i h
      cases i with
      | zero =>
        have hy_rest : y ∉ rest := fun hc => hy_mem hc
        have f1 : find? (pair m x y).2 x = some y := by
          rw [hform x, if_neg hxy, if_pos rfl]
        have f2 : find? (pair m x y).2 y = some x := by
          rw [hform y, if_pos rfl]
        exact ⟨ih3 x y hx_rest hy_rest f1, ih3 y x hy_rest hx_rest f2⟩
      | succ j =>
        exact ih4 j (by simp only [List.length_cons] at h; omega)

end Pairing

/-- C10: for every pairing and every odd-length vertex sequence, augment
returns the odd-path error and leaves the pairing exactly unchanged; the
parity check precedes any re-pairing, so the failure is atomic. -/
theorem augment_odd_atomic (m : Pairing) (path : List Nat)
    (h : path.length % 2 = 1) :
    Pairing.augment m path = (some MatchingError.OddPathAugmentation, m) := by
  simp [Pairing.augment, h]

/-- Witness for augment_odd_atomic at the concrete path [0, 1, 2]. -/
theorem augment_odd_atomic_witness :
    ([0, 1, 2] : List Nat).length % 2 = 1 ∧
    Pairing.augment [] [0, 1, 2] = (some MatchingError.OddPathAugmentation, []) :=
  ⟨by decide, augment_odd_atomic [] [0, 1, 2] (by decide)⟩

/-- C4 counterexample: with 0 currently matched to 1, pair(0, 1) returns
the Duplicate error rather than succeeding as a no-op. -/
theorem pair_current_mate_not_ok :
    (Pairing.pair [(1, 0), (0, 1)] 0 1).1 = some (MatchingError.Duplicate 0 1) := by
  decide

/-- C4 (amended): pairing a vertex to its current mate returns the
Duplicate error, not success, and leaves the pairing unchanged. -/
theorem pair_current_mate_err (m : Pairing) (u v : Nat)
    (h : Pairing.find? m u = some v) :
    Pairing.pair m u v = (some (MatchingError.Duplicate u v), m) :=
  Pairing.pair_eq_err_left h

/-- Witness for pair_current_mate_err on the pairing that matches 0 and 1. -/
theorem pair_current_mate_err_witness :
    Pairing.find? [(1, 0), (0, 1)] 0 = some 1 ∧
    Pairing.pair [(1, 0), (0, 1)] 0 1
      = (some (MatchingError.Duplicate 0 1), [(1, 0), (0, 1)]) :=
  ⟨by decide, pair_current_mate_err [(1, 0), (0, 1)] 0 1 (by decide)⟩

/-- C3 counterexample: the even-length path [0, 1] fails with Duplicate
when 0 and 1 are already mates, so an even-length augment need not
succeed. -/
theorem augment_even_duplicate :
    ([0, 1] : List Nat).length % 2 = 0 ∧
    (Pairing.augment [(1, 0), (0, 1)] [0, 1]).1
      = some (MatchingError.Duplicate 0 1) := by
  decide

/-- C3 (amended): for a symmetric pairing and a duplicate-free vertex
sequence none of whose even-indexed adjacent pairs is already matched,
augment fails with the odd-path error iff the length is odd, and on every
even-length such path it succeeds, after which path[2i] and path[2i+1] are
mates for every i, previous mates having been displaced. -/
theorem augment_spec (m : Pairing) (path : List Nat)
    (hinv : Pairing.Involutive m) (hnd : path.Nodup)
    (hfree : ∀ i (h : 2 * i + 1 < path.length),
      Pairing.find? m (path.get ⟨2 * i, by omega⟩) ≠ some (path.get ⟨2 * i + 1, h⟩)) :
    ((Pairing.augment m path).1 = some MatchingError.OddPathAugmentation
        ↔ path.length % 2 = 1)
    ∧ (path.length % 2 = 0 →
        (Pairing.augment m path).1 = none
        ∧ ∀ i (h : 2 * i + 1 < path.length),
            Pairing.find? (Pairing.augment m path).2 (path.get ⟨2 * i, by omega⟩)
              = some (path.get ⟨2 * i + 1, h⟩)
            ∧ Pairing.find? (Pairing.augment m path).2 (path.get ⟨2 * i + 1, h⟩)
              = some (path.get ⟨2 * i, by omega⟩)) := by
  obtain ⟨h1, _, _, h4⟩ := Pairing.augmentLoop_spec path m hinv hnd hfree
  have hrw : path.length % 2 = 0 →
      Pairing.augment m path = Pairing.augmentLoop m path := by
    intro he
    unfold Pairing.augment
    rw [if_neg (by omega)]
  constructor
  · constructor
    · intro herr
      by_contra hodd
      have he : path.length % 2 = 0 := by omega
      rw [hrw he] at herr
      rw [h1] at herr
      exact Option.noConfusion herr
    · intro hodd
      simp [Pairing.augment, hodd]
  · intro heven
    rw [hrw heven]
    exact ⟨h1, h4⟩

/-- Witness for augment_spec on the empty pairing and the path
[0, 1, 2, 3]. -/
theorem augment_spec_witness :
    (Pairing.augment [] [0, 1, 2, 3]).1 = none := by
  have h := augment_spec [] [0, 1, 2, 3]
    (fun a b hab => by simp [Pairing.find?] at hab)
    (by decide)
    (fun i hi => by simp [Pairing.find?])
  exact (h.2 (by decide)).1

/-- C5 counterexample: pair(0, 0) on the empty pairing succeeds and
creates a self-pair, so a reachable pairing can violate invariant (iii). -/
theorem pair_self_reachable_violation :
    (Pairing.pair [] 0 0).1 = none ∧
    Pairing.find? (Pairing.pair [] 0 0).2 0 = some 0 := by
  decide

/-- C5 (amended): every pairing reachable by successful pair and augment
calls is symmetric and has unique keys; when moreover no call ever asks a
vertex to be paired with itself, the pairing is also self-pair free. -/
theorem reachable_invariants :
    (∀ m, Pairing.Reachable m → Pairing.Involutive m ∧ Pairing.NodupKeys m)
    ∧ (∀ m, Pairing.ReachableNS m → Pairing.SelfPairFree m) := by
  constructor
  · intro m h
    induction h with
    | nil =>
      refine ⟨fun a b hab => by simp [Pairing.find?] at hab, ?_⟩
      simp [Pairing.NodupKeys, Pairing.keys]
    | pair m s t hm hok ih =>
      exact ⟨Pairing.involutive_pair ih.1 hok, Pairing.nodupKeys_pair s t ih.2⟩
    | augment m p hm hok ih =>
      refine ⟨?_, ?_⟩
      · exact Pairing.augment_inv
          (fun m s t hi ho => Pairing.involutive_pair hi ho) ih.1 hok
      · exact Pairing.augment_inv
          (fun m s t hn ho => Pairing.nodupKeys_pair s t hn) ih.2 hok
  · intro m h
    induction h with
    | nil => exact fun a => by simp [Pairing.find?]
    | pair m s t hm hst hok ih => exact Pairing.selfPairFree_pair ih hst hok
    | augment m p hm hp hok ih => exact Pairing.augment_selfPairFree ih hp hok

namespace Marker

@[simp]
theorem edgesFind?_edgesErase (es : List (Nat × List Nat)) (k a : Nat) :
    edgesFind? (edgesErase es k) a = if a = k then none else edgesFind? es a := by
  induction es with
  | nil => simp [edgesFind?, edgesErase]
  | cons p rest ih =>
    obtain ⟨x, y⟩ := p
    by_cases hxk : x = k
    · by_cases hak : a = k
      · simp only [hak] at ih ⊢
        simp [edgesErase, edgesFind?, hxk, ih]
      · have hka : ¬k = a := by omega
        simp [edgesErase, edgesFind?, hxk, hak, hka, ih]
    · by_cases hxa : x = a
      · have hak : a ≠ k := by omega
        simp [edgesErase, edgesFind?, hxk, hxa, hak]
      · simp [edgesErase, edgesFind?, hxk, hxa, ih]

@[simp]
theorem edgesFind?_edgesInsert (es : List (Nat × List Nat)) (k : Nat)
    (v : List Nat) (a : Nat) :
    edgesFind? (edgesInsert es k v) a = if a = k then some v else edgesFind? es a := by
  by_cases hak : a = k
  · simp [edgesInsert, edgesFind?, hak]
  · have hka : k ≠ a := by omega
    simp [edgesInsert, edgesFind?, hak, hka, edgesFind?_edgesErase]

/-- After the two entry updates of mark_edge, both orientations of the
edge are recorded. -/
theorem edgesSecond_insert_both (nodes : List Nat)
    (es : List (Nat × List Nat)) (s t : Nat) (L : List Nat) (hL : t ∈ L) :
    has_edge ⟨nodes, edgesSecond (edgesInsert es s L) t s⟩ s t = true
    ∧ has_edge ⟨nodes, edgesSecond (edgesInsert es s L) t s⟩ t s = true := by
  unfold edgesSecond
  rcases hft : edgesFind? (edgesInsert es s L) t with _ | ms
  · have hts : ¬t = s := by
      intro h
      rw [edgesFind?_edgesInsert, if_pos h] at hft
      exact Option.noConfusion hft
    constructor
    · have hst : ¬s = t := by omega
      unfold has_edge
      simp only [edgesFind?_edgesInsert, if_neg hst, if_pos rfl]
      simp [hL]
    · unfold has_edge
      simp [edgesFind?_edgesInsert]
  · constructor
    · unfold has_edge
      by_cases hst : s = t
      · simp [edgesFind?_edgesInsert, hst]
      · simp only [edgesFind?_edgesInsert, if_neg hst, if_pos rfl]
        simp [hL]
    · unfold has_edge
      simp [edgesFind?_edgesInsert]

end Marker

/-- C7 counterexample: the first marking of a node or an edge succeeds,
and repeating it (for edges, in either orientation) fails instead of being
idempotent. -/
theorem marker_mark_twice_fails :
    (Marker.mark_node Marker.new 0).isSome = true
    ∧ (Marker.mark_node Marker.new 0).bind (fun mk => Marker.mark_node mk 0) = none
    ∧ (Marker.mark_edge Marker.new 0 1).isSome = true
    ∧ (Marker.mark_edge Marker.new 0 1).bind (fun mk => Marker.mark_edge mk 0 1) = none
    ∧ (Marker.mark_edge Marker.new 0 1).bind (fun mk => Marker.mark_edge mk 1 0) = none := by
  decide

/-- C7 (amended): duplicate marking is a fatal error rather than an
idempotent success: marking a marked node fails, marking a marked edge
fails, and a successful edge marking records both orientations, so the
reversed duplicate fails as well. -/
theorem marker_duplicate_fatal (mk : Marker) (v s t : Nat) :
    (Marker.has_node mk v = true → Marker.mark_node mk v = none)
    ∧ (Marker.has_edge mk s t = true → Marker.mark_edge mk s t = none)
    ∧ (∀ mk2, Marker.mark_edge mk s t = some mk2 →
        Marker.has_edge mk2 s t = true ∧ Marker.has_edge mk2 t s = true) := by
  refine ⟨?_, ?_, ?_⟩
  · intro h
    unfold Marker.has_node at h
    simp only [decide_eq_true_eq] at h
    simp [Marker.mark_node, h]
  · intro h
    unfold Marker.has_edge at h
    rcases hf : Marker.edgesFind? mk.edges s with _ | ns
    · rw [hf] at h
      exact Bool.noConfusion h
    · rw [hf] at h
      simp only [decide_eq_true_eq] at h
      simp [Marker.mark_edge, hf, h]
  · intro mk2 hmk
    unfold Marker.mark_edge at hmk
    split at hmk
    · split at hmk
      · exact Option.noConfusion hmk
      · obtain rfl := Option.some.inj hmk
        rename_i ns hfs htn
        exact Marker.edgesSecond_insert_both mk.nodes mk.edges s t (ns ++ [t]) (by simp)
    · obtain rfl := Option.some.inj hmk
      exact Marker.edgesSecond_insert_both mk.nodes mk.edges s t [t] (by simp)

/-- Witness for marker_duplicate_fatal on a marker with node 0 and edge
(0, 1) marked. -/
theorem marker_duplicate_fatal_witness :
    Marker.mark_node ⟨[0], [(0, [1]), (1, [0])]⟩ 0 = none
    ∧ Marker.mark_edge ⟨[0], [(0, [1]), (1, [0])]⟩ 0 1 = none := by
  have h := marker_duplicate_fatal ⟨[0], [(0, [1]), (1, [0])]⟩ 0 0 1
  exact ⟨h.1 (by decide), h.2.1 (by decide)⟩

namespace Blossom

theorem findInRight_none_iff (x : Nat) (r : List Nat) :
    findInRight x r = none ↔ x ∉ r := by
  induction r with
  | nil => simp [findInRight]
  | cons y ys ih =>
    by_cases hxy : x = y
    · simp [findInRight, hxy]
    · have hyx : ¬x = y := hxy
      simp [findInRight, hxy, ih, fun h => hyx h]

theorem findInRight_eq_some (x : Nat) (r : List Nat) (j : Nat)
    (hj : j < r.length) (heq : r.get ⟨j, hj⟩ = x)
    (hmin : ∀ j' (h' : j' < j), r.get ⟨j', by omega⟩ ≠ x) :
    findInRight x r = some j := by
  induction r generalizing j with
  | nil => simp at hj
  | cons y ys ih =>
    cases j with
    | zero =>
      have hxy : x = y := heq.symm
      simp [findInRight, hxy]
    | succ j0 =>
      have hxy : ¬x = y := by
        intro h
        exact hmin 0 (by omega) h.symm
      have hj0 : j0 < ys.length := by
        simp only [List.length_cons] at hj
        omega
      have hrec : findInRight x ys = some j0 :=
        ih j0 hj0 heq (fun j' h' => hmin (j' + 1) (by omega))
      simp [findInRight, hxy, hrec]

theorem scanPath_none_iff (l r : List Nat) :
    scanPath l r = none ↔ ∀ x ∈ l, x ∉ r := by
  induction l with
  | nil => simp [scanPath]
  | cons x xs ih =>
    rcases hf : findInRight x r with _ | j
    · have hx : x ∉ r := (findInRight_none_iff x r).1 hf
      simp [scanPath, hf, ih, hx]
    · have hx : x ∈ r := by
        by_contra hc
        rw [(findInRight_none_iff x r).2 hc] at hf
        exact Option.noConfusion hf
      simp [scanPath, hf, hx]

theorem scanPath_min (l r : List Nat) :
    ∀ (i j : Nat) (hi : i < l.length) (hj : j < r.length),
      l.get ⟨i, hi⟩ = r.get ⟨j, hj⟩ →
      (∀ i' j' (hi' : i' < l.length) (hj' : j' < r.length),
        l.get ⟨i', hi'⟩ = r.get ⟨j', hj'⟩ → i < i' ∨ (i = i' ∧ j ≤ j')) →
      scanPath l r = some (l.take i ++ l.get ⟨i, hi⟩ :: (r.take j).reverse) := by
  induction l with
  | nil =>
    intro i j hi
    simp at hi
  | cons x xs ih =>
    intro i j hi hj heq hmin
    cases i with
    | zero =>
      have hx : findInRight x r = some j := by
        apply findInRight_eq_some x r j hj heq.symm
        intro j' h' hcon
        rcases hmin 0 j' (by omega) (by omega) hcon.symm with h | ⟨_, hle⟩
        · omega
        · omega
      simp [scanPath, hx]
    | succ i0 =>
      have hxr : x ∉ r := by
        intro hmem
        obtain ⟨⟨j', hj'⟩, hx⟩ := List.mem_iff_get.1 hmem
        rcases hmin 0 j' (by omega) hj' hx.symm with h | ⟨h, _⟩
        · omega
        · omega
      have hf : findInRight x r = none := (findInRight_none_iff x r).2 hxr
      have hi0 : i0 < xs.length := by
        simp only [List.length_cons] at hi
        omega
      have hrec := ih i0 j hi0 hj heq
        (fun i' j' hi' hj' he => by
          rcases hmin (i' + 1) j' (by simp only [List.length_cons]; omega) hj' he with h | ⟨h, hle⟩
          · left
            omega
          · right
            omega)
      simp [scanPath, hf, hrec]

end Blossom

/-- C8: Blossom::new fails exactly when left and right share no vertex,
and otherwise stores as its path left[:i] ++ [left[i]] ++
reverse(right[:j]) for the lexicographically minimal index pair (i, j)
with left[i] = right[j], scanning left in the outer loop and right in the
inner one. -/
theorem blossom_new_spec (id : Nat) (left right : List Nat) :
    (Blossom.new id left right = none ↔ ∀ x ∈ left, x ∉ right)
    ∧ (∀ i j (hi : i < left.length) (hj : j < right.length),
        left.get ⟨i, hi⟩ = right.get ⟨j, hj⟩ →
        (∀ i' j' (hi' : i' < left.length) (hj' : j' < right.length),
          left.get ⟨i', hi'⟩ = right.get ⟨j', hj'⟩ → i < i' ∨ (i = i' ∧ j ≤ j')) →
        Blossom.new id left right
          = some ⟨id, left.take i ++ left.get ⟨i, hi⟩ :: (right.take j).reverse⟩) := by
  constructor
  · unfold Blossom.new
    rw [Option.map_eq_none']
    exact Blossom.scanPath_none_iff left right
  · intro i j hi hj heq hmin
    unfold Blossom.new
    rw [Blossom.scanPath_min left right i j hi hj heq hmin]
    rfl

/-- Witness for blossom_new_spec on the constructor test inputs of the
source, left [2, 1, 0] and right [5, 4, 0] with base 0. -/
theorem blossom_new_spec_witness :
    Blossom.new 1 [2, 1, 0] [5, 4, 0] = some ⟨1, [2, 1, 0, 4, 5]⟩ := by
  have hmin : ∀ i' j' (hi' : i' < ([2, 1, 0] : List Nat).length)
      (hj' : j' < ([5, 4, 0] : List Nat).length),
      ([2, 1, 0] : List Nat).get ⟨i', hi'⟩ = ([5, 4, 0] : List Nat).get ⟨j', hj'⟩ →
      2 < i' ∨ (2 = i' ∧ 2 ≤ j') := by
    intro i' j' hi' hj' he
    simp only [List.length_cons, List.length_nil] at hi' hj'
    interval_cases i' <;> interval_cases j' <;> simp_all
  have h := (blossom_new_spec 1 [2, 1, 0] [5, 4, 0]).2 2 2
    (by decide) (by decide) (by decide) hmin
  simpa using h

/-- C6: on the graph with edge list [(0,1), (1,2), (2,0), (2,3)], greedy
returns the matching {(0, 1)} although (2, 3) is an edge of the graph with
both endpoints unmatched, so the greedy result is not maximal. Vertex 2
enters the seen set unmatched through the cut step (2, 0), after which the
short-circuited insertion never pairs it with the fresh leaf 3. -/
theorem greedy_misses_edge :
    (DefaultGraph.try_from_edges [(0, 1), (1, 2), (2, 0), (2, 3)]).map (fun g =>
      ((g.has_edge 2 3).toOption, (greedy g 100).map (fun m =>
        (Pairing.edges m, Pairing.has_node m 2, Pairing.has_node m 3))))
    = .ok (some true, some ([(0, 1)], false, false)) := by
  rfl

theorem outerLoop_frame :
    ∀ (fuel : Nat) (g : DefaultGraph) (m : Pairing) (f : Forest) (mk : Marker)
      (r : Option (List Nat) × Pairing),
      outerLoop fuel g m f mk = some r → r.2 = m
  | 0, _, _, _, _, _ => by
    intro h
    exact Option.noConfusion h
  | fuel + 1, g, m, f, mk, r => by
    intro h
    unfold outerLoop at h
    split at h
    · obtain rfl := Option.some.inj h
      rfl
    · split at h
      · exact Option.noConfusion h
      · obtain rfl := Option.some.inj h
        rfl
      · split at h
        · exact Option.noConfusion h
        · exact outerLoop_frame fuel g m _ _ r h

/-- C9: a call to augmenting_path leaves the pairing exactly as it found
it: whatever search result the fueled embedding reaches, the pairing state
it hands back is the input pairing, mutation being reserved to the driver
that calls augment only after a path is returned. -/
theorem augmentingPath_frame (fuel : Nat) (g : DefaultGraph) (m : Pairing)
    (r : Option (List Nat) × Pairing) (h : augmentingPath fuel g m = some r) :
    r.2 = m := by
  cases fuel with
  | zero => exact Option.noConfusion h
  | succ fuel =>
    unfold augmentingPath at h
    split at h
    · exact Option.noConfusion h
    · exact outerLoop_frame fuel g m _ _ r h

/-- Witness for augmentingPath_frame on the two-vertex path graph. -/
theorem augmentingPath_frame_witness :
    augmentingPath 50 ⟨[(0, [1]), (1, [0])], [(0, 1)]⟩ [] = some (some [0, 1], [])
    ∧ (some ([0, 1] : List Nat), ([] : Pairing)).2 = ([] : Pairing) :=
  ⟨by rfl, augmentingPath_frame 50 ⟨[(0, [1]), (1, [0])], [(0, 1)]⟩ [] _ (by rfl)⟩

/-- Fuel monotonicity of the search embedding: every completed result is
stable under one more unit of fuel, for each function of the mutual
block. -/
theorem searchMono : ∀ fuel : Nat,
    (∀ g m r, augmentingPath fuel g m = some r →
      augmentingPath (fuel + 1) g m = some r)
    ∧ (∀ g m f mk r, outerLoop fuel g m f mk = some r →
      outerLoop (fuel + 1) g m f mk = some r)
    ∧ (∀ g m v f mk r, innerLoop fuel g m v f mk = some r →
      innerLoop (fuel + 1) g m v f mk = some r)
    ∧ (∀ g v pw m f r, even_path fuel g v pw m f = some r →
      even_path (fuel + 1) g v pw m f = some r)
    ∧ (∀ g l rr m r, process_blossom fuel g l rr m = some r →
      process_blossom (fuel + 1) g l rr m = some r) := by
  intro fuel
  induction fuel with
  | zero =>
    refine ⟨?_, ?_, ?_, ?_, ?_⟩
    · intro g m r h
      exact Option.noConfusion h
    · intro g m f mk r h
      exact Option.noConfusion h
    · intro g m v f mk r h
      exact Option.noConfusion h
    · intro g v pw m f r h
      exact Option.noConfusion h
    · intro g l rr m r h
      exact Option.noConfusion h
  | succ fuel ih =>
    obtain ⟨ihA, ihO, ihI, ihE, ihP⟩ := ih
    refine ⟨?_, ?_, ?_, ?_, ?_⟩
    · intro g m r h
      unfold augmentingPath at h ⊢
      split at h
      · exact Option.noConfusion h
      · exact ihO g m _ _ r h
    · intro g m f mk r h
      unfold outerLoop at h ⊢
      split at h
      · exact h
      · rename_i v heqv
        split at h
        · exact Option.noConfusion h
        · rename_i heq2
          rw [ihI _ _ _ _ _ _ heq2]
          exact h
        · rename_i f1 mk1s heq2
          rw [ihI _ _ _ _ _ _ heq2]
          show (match Marker.mark_node mk1s v with
            | none => none
            | some mk2 => outerLoop (fuel + 1) g m f1 mk2) = some r
          split at h
          · exact Option.noConfusion h
          · rename_i mk2 heq3
            exact ihO g m f1 mk2 r h
    · intro g m v f mk r h
      unfold innerLoop at h ⊢
      split at h
      · exact Option.noConfusion h
      · exact h
      · split at h
        · rename_i path_w heq2
          by_cases hodd : path_w.length % 2 = 1
          · rw [if_pos hodd] at h ⊢
            split at h
            · exact Option.noConfusion h
            · rename_i heq3
              rw [ihE _ _ _ _ _ _ heq3]
              exact h
          · rw [if_neg hodd] at h ⊢
            split at h
            · exact Option.noConfusion h
            · exact ihI g m v _ _ r h
        · split at h
          · exact Option.noConfusion h
          · split at h
            · exact Option.noConfusion h
            · exact ihI g m v _ _ r h
    · intro g v pw m f r h
      unfold even_path at h ⊢
      split at h
      · exact Option.noConfusion h
      · rename_i path_v heq
        by_cases hc : path_v.getLast? = pw.getLast?
        · rw [if_pos hc] at h ⊢
          exact ihP g _ pw m r h
        · rw [if_neg hc] at h ⊢
          exact h
    · intro g l rr m r h
      unfold process_blossom at h ⊢
      split at h
      · exact Option.noConfusion h
      · split at h
        · exact Option.noConfusion h
        · split at h
          · exact Option.noConfusion h
          · split at h
            · exact Option.noConfusion h
            · rename_i heq4
              rw [ihA _ _ _ heq4]
              exact h
            · rename_i heq4
              rw [ihA _ _ _ heq4]
              exact h

/-- Fuel monotonicity of augmenting_path for any larger fuel. -/
theorem augmentingPath_mono {fuel fuelB : Nat} (hle : fuel ≤ fuelB)
    {g : DefaultGraph} {m : Pairing} {r : Option (List Nat) × Pairing}
    (h : augmentingPath fuel g m = some r) :
    augmentingPath fuelB g m = some r := by
  induction hle with
  | refl => exact h
  | step hk ih => exact (searchMono _).1 _ _ _ ih

/-- Determinism of completed augmenting_path results across fuels. -/
theorem augmentingPath_det {fuel fuelB : Nat} {g : DefaultGraph} {m : Pairing}
    {r rB : Option (List Nat) × Pairing}
    (h : augmentingPath fuel g m = some r)
    (hB : augmentingPath fuelB g m = some rB) : r = rB := by
  rcases Nat.le_total fuel fuelB with hle | hle
  · have h2 := augmentingPath_mono hle h
    rw [hB] at h2
    exact (Option.some.inj h2).symm
  · have h2 := augmentingPath_mono hle hB
    rw [h] at h2
    exact Option.some.inj h2

/-- On the triangle 0-1-2 with pendant 3, both pairing states visited by
the driver loop map back into themselves without change, so the loop never
terminates: the empty pairing augments to the matching pairing 0 with 1,
and from there every search returns the invalid lifted path [0, 1, 2, 3],
whose augment fails and is discarded. -/
theorem mm_k3pendant_loop (g : DefaultGraph)
    (hg : g = ⟨[(0, [1, 2]), (1, [0, 2]), (2, [0, 1, 3]), (3, [2])],
      [(0, 1), (0, 2), (1, 2), (2, 3)]⟩) :
    ∀ fuel m, (m = [] ∨ m = [(1, 0), (0, 1)]) → maximumMatching fuel g m = none := by
  have hap0 : augmentingPath 20 g [] = some (some [0, 1], []) := by
    rw [hg]; rfl
  have hap1 : augmentingPath 20 g [(1, 0), (0, 1)]
      = some (some [0, 1, 2, 3], [(1, 0), (0, 1)]) := by
    rw [hg]; rfl
  intro fuel
  induction fuel with
  | zero =>
    intro m hm
    rfl
  | succ fuel ih =>
    intro m hm
    unfold maximumMatching
    rcases hap : augmentingPath fuel g m with _ | pr
    · rfl
    · obtain ⟨res, m1⟩ := pr
      rcases hm with rfl | rfl
      · have hdet := augmentingPath_det hap hap0
        injection hdet with h1 h2
        subst h1
        subst h2
        show (match maximumMatching fuel g (Pairing.augment [] [0, 1]).2 with
          | none => none
          | some m3 => maximumMatching fuel g m3) = none
        have hm2 : (Pairing.augment [] [0, 1]).2 = [(1, 0), (0, 1)] := rfl
        rw [hm2, ih [(1, 0), (0, 1)] (Or.inr rfl)]
      · have hdet := augmentingPath_det hap hap1
        injection hdet with h1 h2
        subst h1
        subst h2
        show (match maximumMatching fuel g
            (Pairing.augment [(1, 0), (0, 1)] [0, 1, 2, 3]).2 with
          | none => none
          | some m3 => maximumMatching fuel g m3) = none
        have hm2 : (Pairing.augment [(1, 0), (0, 1)] [0, 1, 2, 3]).2
            = [(1, 0), (0, 1)] := rfl
        rw [hm2, ih [(1, 0), (0, 1)] (Or.inr rfl)]

/-- On the triangle 0-1-3 with pendant 2, the same no-progress cycle
appears: the search for the pairing 0 with 1 returns [0, 1, 3, 2], whose
augment fails at its first pair call and is discarded. -/
theorem mm_k3pendant53_loop (g : DefaultGraph)
    (hg : g = ⟨[(0, [1, 3]), (1, [0, 3]), (3, [0, 1, 2]), (2, [3])],
      [(0, 1), (0, 3), (1, 3), (2, 3)]⟩) :
    ∀ fuel m, (m = [] ∨ m = [(1, 0), (0, 1)]) → maximumMatching fuel g m = none := by
  have hap0 : augmentingPath 20 g [] = some (some [0, 1], []) := by
    rw [hg]; rfl
  have hap1 : augmentingPath 20 g [(1, 0), (0, 1)]
      = some (some [0, 1, 3, 2], [(1, 0), (0, 1)]) := by
    rw [hg]; rfl
  intro fuel
  induction fuel with
  | zero =>
    intro m hm
    rfl
  | succ fuel ih =>
    intro m hm
    unfold maximumMatching
    rcases hap : augmentingPath fuel g m with _ | pr
    · rfl
    · obtain ⟨res, m1⟩ := pr
      rcases hm with rfl | rfl
      · have hdet := augmentingPath_det hap hap0
        injection hdet with h1 h2
        subst h1
        subst h2
        show (match maximumMatching fuel g (Pairing.augment [] [0, 1]).2 with
          | none => none
          | some m3 => maximumMatching fuel g m3) = none
        have hm2 : (Pairing.augment [] [0, 1]).2 = [(1, 0), (0, 1)] := rfl
        rw [hm2, ih [(1, 0), (0, 1)] (Or.inr rfl)]
      · have hdet := augmentingPath_det hap hap1
        injection hdet with h1 h2
        subst h1
        subst h2
        show (match maximumMatching fuel g
            (Pairing.augment [(1, 0), (0, 1)] [0, 1, 3, 2]).2 with
          | none => none
          | some m3 => maximumMatching fuel g m3) = none
        have hm2 : (Pairing.augment [(1, 0), (0, 1)] [0, 1, 3, 2]).2
            = [(1, 0), (0, 1)] := rfl
        rw [hm2, ih [(1, 0), (0, 1)] (Or.inr rfl)]

/-- C2: maximum_matching is not guaranteed to terminate. On the triangle
0-1-2 with pendant vertex 3 (edge list [(0,1), (0,2), (1,2), (2,3)]) and
the empty initial pairing, once the pairing holds the matched edge (0, 1)
every search returns the lifted path [0, 1, 2, 3], whose augment fails
with Duplicate(0, 1) and is discarded by the driver, so no iteration ever
increases the matched-edge count and the loop runs forever: the fueled
embedding returns none at every fuel. -/
theorem maximum_matching_diverges :
    (∀ fuel, maximumMatching fuel
        ⟨[(0, [1, 2]), (1, [0, 2]), (2, [0, 1, 3]), (3, [2])],
         [(0, 1), (0, 2), (1, 2), (2, 3)]⟩ [] = none)
    ∧ DefaultGraph.try_from_edges [(0, 1), (0, 2), (1, 2), (2, 3)]
        = Except.ok ⟨[(0, [1, 2]), (1, [0, 2]), (2, [0, 1, 3]), (3, [2])],
            [(0, 1), (0, 2), (1, 2), (2, 3)]⟩
    ∧ augmentingPath 20
        ⟨[(0, [1, 2]), (1, [0, 2]), (2, [0, 1, 3]), (3, [2])],
         [(0, 1), (0, 2), (1, 2), (2, 3)]⟩ [(1, 0), (0, 1)]
        = some (some [0, 1, 2, 3], [(1, 0), (0, 1)])
    ∧ Pairing.augment [(1, 0), (0, 1)] [0, 1, 2, 3]
        = (some (MatchingError.Duplicate 0 1), [(1, 0), (0, 1)]) :=
  ⟨fun fuel => mm_k3pendant_loop _ rfl fuel [] (Or.inl rfl), by rfl, by rfl, by rfl⟩

/-- C1: maximum_matching does not establish its postcondition on every
well-formed graph and valid initial pairing: on the triangle 0-1-3 with
pendant vertex 2 (edge list [(0,1), (0,3), (1,3), (2,3)]) and the empty
initial pairing the call never returns, so no maximum matching is
produced at all, although the two-edge matching (0,1), (2,3) exists; the
fueled embedding returns none at every fuel, while the driver-visited
pairing matches only 0 with 1. -/
theorem maximum_matching_no_result :
    (∀ fuel, maximumMatching fuel
        ⟨[(0, [1, 3]), (1, [0, 3]), (3, [0, 1, 2]), (2, [3])],
         [(0, 1), (0, 3), (1, 3), (2, 3)]⟩ [] = none)
    ∧ DefaultGraph.try_from_edges [(0, 1), (0, 3), (1, 3), (2, 3)]
        = Except.ok ⟨[(0, [1, 3]), (1, [0, 3]), (3, [0, 1, 2]), (2, [3])],
            [(0, 1), (0, 3), (1, 3), (2, 3)]⟩
    ∧ augmentingPath 20
        ⟨[(0, [1, 3]), (1, [0, 3]), (3, [0, 1, 2]), (2, [3])],
         [(0, 1), (0, 3), (1, 3), (2, 3)]⟩ [(1, 0), (0, 1)]
        = some (some [0, 1, 3, 2], [(1, 0), (0, 1)])
    ∧ (Pairing.augment [(1, 0), (0, 1)] [0, 1, 3, 2]).1
        = some (MatchingError.Duplicate 0 1) :=
  ⟨fun fuel => mm_k3pendant53_loop _ rfl fuel [] (Or.inl rfl), by rfl, by rfl, by rfl⟩

/-- Witness for reachable_invariants at the pairing built by pair(0, 1). -/
theorem reachable_invariants_witness :
    Pairing.Involutive (Pairing.pair [] 0 1).2
    ∧ Pairing.NodupKeys (Pairing.pair [] 0 1).2
    ∧ Pairing.SelfPairFree (Pairing.pair [] 0 1).2 := by
  have h := reachable_invariants
  have hr : Pairing.Reachable (Pairing.pair [] 0 1).2 :=
    Pairing.Reachable.pair [] 0 1 Pairing.Reachable.nil (by decide)
  have hrns : Pairing.ReachableNS (Pairing.pair [] 0 1).2 :=
    Pairing.ReachableNS.pair [] 0 1 Pairing.ReachableNS.nil (by decide) (by decide)
  exact ⟨(h.1 _ hr).1, (h.1 _ hr).2, h.2 _ hrns⟩

end Gamma
